import Mathlib

/-!
# Shallow embedding of deku's bit-level stream adapters

This file embeds the reader side (`src/container.rs`, `Container`) and the
writer side (`src/writer.rs`, `Writer`) of the repository.

Modelling conventions:
* a bit (`bitvec` bit with `Msb0` ordering) is a `Bool`; a `BitVec<u8, Msb0>`
  is a `List Bool`, indexed left-to-right, most-significant-bit first;
* a byte (`u8`) is a `Nat`, of which only the low 8 bits are meaningful; the
  theorems that need genuine bytes carry an explicit `< 256` hypothesis;
* the byte source behind a `Container` (`acid_io::Read`) is a state of type
  `S` together with a `read_exact` function; the in-memory slice reader used
  by the repository's tests is `sliceRead` over `List Nat`;
* the byte sink behind a `Writer` (`no_std_io::io::Write`) is modelled as the
  in-memory `Vec<u8>` used by the repository's tests: a `List Nat`
  accumulator whose `write_all` appends and never fails;
* the mutable-reference API (`&mut self`) is explicit state passing: each
  operation returns its result together with the post-state.
-/

/-- MSB-first bit expansion of one byte: `0xA5` becomes `1 0 1 0 0 1 0 1`.
This is `bitvec`'s `Msb0` view of a `u8`. Only the low 8 bits of `b` are
used, exactly as a `u8` would hold them. -/
def byteToBits (b : Nat) : List Bool :=
  [b / 128 % 2 == 1, b / 64 % 2 == 1, b / 32 % 2 == 1, b / 16 % 2 == 1,
   b / 8 % 2 == 1, b / 4 % 2 == 1, b / 2 % 2 == 1, b % 2 == 1]

/-- MSB-first bit expansion of a byte sequence (`BitVec::try_from_slice` /
`BitVec::from_slice`). -/
def bytesToBits (bs : List Nat) : List Bool :=
  (bs.map byteToBits).flatten

/-- `BitField::load_be` on an 8-bit `Msb0` chunk: the first bit is the 0x80
bit of the resulting byte. -/
def bitsToByte (l : List Bool) : Nat :=
  l.foldl (fun acc b => 2 * acc + (if b then 1 else 0)) 0

/-- Packing of a bit stream into bytes, one byte per full 8-bit chunk, any
trailing partial chunk ignored — the `chunks_exact(8)` + `load_be` loop used
by both `Writer::write_bits` and `Writer::finalize`. -/
def bitsToBytes : List Bool → List Nat
  | b0 :: b1 :: b2 :: b3 :: b4 :: b5 :: b6 :: b7 :: rest =>
      bitsToByte [b0, b1, b2, b3, b4, b5, b6, b7] :: bitsToBytes rest
  | _ => []

namespace Deku

/-- The error values the core constructs (`DekuError::Incomplete` carrying a
`NeedSize` in bits, and `DekuError::WriteError`). -/
inductive DekuError where
  | Incomplete (bits : Nat)
  | WriteError
deriving DecidableEq, Repr

deriving instance DecidableEq for Except

/-- Outcome of `Read::read_exact` on a source of state type `S`: success with
the bytes placed into the buffer, or failure whose kind either is
`UnexpectedEof` (`eof = true`) or is some other I/O error (`eof = false`). -/
inductive ReadExactResult (S : Type) where
  | ok (bytes : List Nat) (s : S)
  | err (eof : Bool) (s : S)

/-- A byte source: `read_exact` asked for `n` bytes, threading state. -/
def ReadExact (S : Type) : Type := S → Nat → ReadExactResult S

/-- `acid_io`'s reader over an in-memory slice (`&[u8]`): `read_exact`
checks the remaining length up front and on a short read fails with
`UnexpectedEof` without consuming anything. -/
def sliceRead : ReadExact (List Nat) := fun data n =>
  if n ≤ data.length then .ok (data.take n) (data.drop n)
  else .err true data

/-- A source whose `read_exact` always fails with an I/O error kind other
than `UnexpectedEof`, writing nothing into the buffer. Used to observe how
`Container` treats non-end-of-stream errors. -/
def failRead : ReadExact Unit := fun _ _ => .err false ()

/-- Contents of an `n`-byte zero-initialised buffer after `read_exact` put
`bs` into its prefix: the code's scratch buffers start as `[0; _]`, so the
positions `read_exact` did not write remain zero. -/
def fillBuf (n : Nat) (bs : List Nat) : List Nat :=
  bs.take n ++ List.replicate (n - bs.length) 0

/-- `src/container.rs` line 31: max bits requested from `read_bits` during
one call; also the size in bytes of the scratch buffer `buf`. -/
def MAX_BITS_AMT : Nat := 128

/-- The `bytes_len` computation of `Container::read_bits` (lines 125-128):
`bits_left / 8`, plus one if `bits_left % 8 != 0`. -/
def bytesLenFor (bits_left : Nat) : Nat :=
  bits_left / 8 + if bits_left % 8 ≠ 0 then 1 else 0

/-- `Container` (src/container.rs lines 22-28): the wrapped reader state, the
leftover bits buffered from reads that stopped mid-byte, and the running
count of bits read. -/
structure Container (S : Type) where
  inner : S
  leftover : List Bool
  bits_read : Nat
deriving DecidableEq, Repr

/-- `Container::new`. -/
def Container.new {S : Type} (inner : S) : Container S :=
  { inner := inner, leftover := [], bits_read := 0 }

/-- Return from `Container::read_bytes`. -/
inductive ContainerRet where
  | Bytes (buf : List Nat)
  | Bits (bits : Option (List Bool))
deriving DecidableEq, Repr

/-- `Container::read_bits` (src/container.rs lines 102-163). The three
`Ordering` arms of `amt.cmp(&self.leftover.len())` appear here as the
`amt = L` / `L < amt` / `amt < L` branches. In the `Greater` arm a non-eof
`read_exact` error falls through (the `TODO: other errors?` path) and the
zero-initialised scratch buffer is used as if it had been filled. -/
def Container.read_bits {S : Type} (re : ReadExact S) (c : Container S)
    (amt : Nat) : Except DekuError (Option (List Bool)) × Container S :=
  if amt = 0 then
    (.ok none, c)
  else if amt = c.leftover.length then
    -- Ordering::Equal: swap ret and leftover, clear leftover
    let ret := c.leftover
    (.ok (some ret),
     { c with leftover := [], bits_read := c.bits_read + ret.length })
  else if c.leftover.length < amt then
    -- Ordering::Greater: previous read not enough, read more bytes
    let bits_left := amt - c.leftover.length
    let bytes_len := bytesLenFor bits_left
    match re c.inner bytes_len with
    | .err true s =>
        (.error (.Incomplete amt), { c with inner := s })
    | .err false s =>
        -- non-eof error ignored; scratch buffer still holds its zeros
        let buf := fillBuf bytes_len []
        let restBits := bytesToBits buf
        let ret := c.leftover ++ restBits.take bits_left
        (.ok (some ret),
         { inner := s, leftover := restBits.drop bits_left,
           bits_read := c.bits_read + ret.length })
    | .ok bytes s =>
        let buf := fillBuf bytes_len bytes
        let restBits := bytesToBits buf
        let ret := c.leftover ++ restBits.take bits_left
        (.ok (some ret),
         { inner := s, leftover := restBits.drop bits_left,
           bits_read := c.bits_read + ret.length })
  else
    -- Ordering::Less: split_off(amt); first amt bits returned, rest kept
    let ret := c.leftover.take amt
    (.ok (some ret),
     { c with leftover := c.leftover.drop amt,
              bits_read := c.bits_read + ret.length })

/-- `Container::end` (src/container.rs lines 56-77): true only when the
leftover buffer is empty and a one-byte look-ahead hits end-of-stream; a
byte that was read is turned into bits and buffered. On a non-eof read
error the code falls through and buffers the zeroed look-ahead buffer. -/
def Container.end_ {S : Type} (re : ReadExact S) (c : Container S) :
    Bool × Container S :=
  if !c.leftover.isEmpty then
    (false, c)
  else
    match re c.inner 1 with
    | .err true s => (true, { c with inner := s })
    | .err false s =>
        (false, { c with inner := s, leftover := bytesToBits (fillBuf 1 []) })
    | .ok bytes s =>
        (false, { c with inner := s, leftover := bytesToBits (fillBuf 1 bytes) })

/-- `Container::skip_bits` (src/container.rs lines 82-90): read and discard
`amt` bits, then zero the bit counter. -/
def Container.skip_bits {S : Type} (re : ReadExact S) (c : Container S)
    (amt : Nat) : Except DekuError Unit × Container S :=
  match Container.read_bits re c amt with
  | (.ok _, c') => (.ok (), { c' with bits_read := 0 })
  | (.error e, c') => (.error e, c')

/-- `Container::read_bytes` (src/container.rs lines 172-193). `buf` is the
caller's buffer; on the byte-aligned fast path its first `amt` slots are
overwritten and the `Bytes` variant carries the resulting contents. A
non-eof `read_exact` error again falls through, leaving `buf` as given. -/
def Container.read_bytes {S : Type} (re : ReadExact S) (c : Container S)
    (amt : Nat) (buf : List Nat) : Except DekuError ContainerRet × Container S :=
  if c.leftover.isEmpty then
    if buf.length < amt then
      (.error (.Incomplete (amt * 8)), c)
    else
      match re c.inner amt with
      | .err true s =>
          (.error (.Incomplete (amt * 8)), { c with inner := s })
      | .err false s =>
          (.ok (.Bytes buf),
           { c with inner := s, bits_read := c.bits_read + amt * 8 })
      | .ok bytes s =>
          (.ok (.Bytes (fillBuf amt bytes ++ buf.drop amt)),
           { c with inner := s, bits_read := c.bits_read + amt * 8 })
  else
    match Container.read_bits re c (amt * 8) with
    | (.ok r, c') => (.ok (.Bits r), c')
    | (.error e, c') => (.error e, c')

/-- `Writer` (src/writer.rs lines 15-19); the sink is the in-memory
`Vec<u8>` of the repository's tests, so `write_all` appends and never
fails. -/
structure Writer where
  inner : List Nat
  leftover : List Bool
  bits_written : Nat
deriving DecidableEq, Repr

/-- `Writer::new`. -/
def Writer.new : Writer :=
  { inner := [], leftover := [], bits_written := 0 }

/-- `Writer::write_bits` (src/writer.rs lines 37-78): fewer than 8 combined
bits are only accumulated; otherwise the pre-pended stream is packed with
`chunks_exact(8)`/`load_be` (our `bitsToBytes`), the packed bytes are
written, the trailing `total % 8` bits become the new leftover, and
`bits_written` is set to the number of bits just flushed. -/
def Writer.write_bits (w : Writer) (bits : List Bool) : Writer :=
  if w.leftover.length + bits.length < 8 then
    { w with leftover := w.leftover ++ bits }
  else
    let bits' := w.leftover ++ bits
    let buf := bitsToBytes bits'
    { inner := w.inner ++ buf,
      leftover := bits'.drop (8 * (bits'.length / 8)),
      bits_written := 8 * (bits'.length / 8) }

/-- `Writer::write_bytes` (src/writer.rs lines 81-98): with a non-empty
leftover the bytes are re-routed through `write_bits`; otherwise they are
written directly and `bits_written` is set to `8 * buf.len()`. -/
def Writer.write_bytes (w : Writer) (buf : List Nat) : Writer :=
  if !w.leftover.isEmpty then
    w.write_bits (bytesToBits buf)
  else
    { w with inner := w.inner ++ buf, bits_written := buf.length * 8 }

/-- `Writer::finalize` (src/writer.rs lines 101-127): a non-empty leftover
is extended in place with zero bits up to the byte boundary, packed, and
written. The code neither clears `leftover` nor touches `bits_written`. -/
def Writer.finalize (w : Writer) : Writer :=
  if !w.leftover.isEmpty then
    let padded := w.leftover ++ List.replicate (8 - w.leftover.length) false
    let buf := bitsToBytes padded
    { w with inner := w.inner ++ buf, leftover := padded }
  else
    w

/-- Leftover bits followed by the MSB-first bits of the unread bytes. -/
def Container.pending (c : Container (List Nat)) : List Bool :=
  c.leftover ++ bytesToBits c.inner

/-- Run a sequence of read_bits calls, collecting the returned bit-vectors
(a read_bits(0), which returns None, contributes the empty bit-vector);
None when some call fails. -/
def Container.readAll {S : Type} (re : ReadExact S) :
    List Nat → Container S → Option (List (List Bool) × Container S)
  | [], c => some ([], c)
  | n :: ns, c =>
    match Container.read_bits re c n with
    | (.ok r, c') =>
      match Container.readAll re ns c' with
      | some (vs, c'') => some ((r.getD []) :: vs, c'')
      | none => none
    | (.error _, _) => none

/-- Writer state reached after the bit stream a went through the writer. -/
def Writer.wf (w : Writer) (a : List Bool) : Prop :=
  w.inner = bitsToBytes a ∧ w.leftover = a.drop (8 * (a.length / 8))

/-- One public call on the Writer. -/
inductive WriteOp where
  | wbits (bits : List Bool)
  | wbytes (bytes : List Nat)

/-- Dispatch one Writer call. -/
def Writer.runWrite (w : Writer) : WriteOp → Writer
  | .wbits bits => w.write_bits bits
  | .wbytes bs => w.write_bytes bs

/-- The bit stream a call feeds into the writer. -/
def WriteOp.bits : WriteOp → List Bool
  | .wbits bits => bits
  | .wbytes bs => bytesToBits bs

/-- A call is valid when the bytes it writes are genuine u8 values. -/
def WriteOp.valid : WriteOp → Prop
  | .wbits _ => True
  | .wbytes bs => ∀ b ∈ bs, b < 256

instance WriteOp.instDecidableValid : (op : WriteOp) → Decidable op.valid
  | .wbits _ => isTrue trivial
  | .wbytes bs => inferInstanceAs (Decidable (∀ b ∈ bs, b < 256))

/-- One public call on the Reader. -/
inductive ReaderOp where
  | rbits (amt : Nat)
  | rbytes (amt : Nat) (buf : List Nat)
  | rend
  | rskip (amt : Nat)

/-- Dispatch one Reader call, keeping the post-state whether the call
succeeded or failed. -/
def Container.step {S : Type} (re : ReadExact S) (c : Container S) :
    ReaderOp → Container S
  | .rbits amt => (Container.read_bits re c amt).2
  | .rbytes amt buf => (Container.read_bytes re c amt buf).2
  | .rend => (Container.end_ re c).2
  | .rskip amt => (Container.skip_bits re c amt).2

/-- Apply a whole sequence of Reader calls. -/
def Container.runOps {S : Type} (re : ReadExact S) (c : Container S)
    (ops : List ReaderOp) : Container S :=
  ops.foldl (Container.step re) c

/-! ## Bit/byte conversion lemmas -/

theorem length_byteToBits (b : Nat) : (byteToBits b).length = 8 := by
  simp [byteToBits]

theorem bytesToBits_nil : bytesToBits [] = [] := rfl

theorem bytesToBits_cons (b : Nat) (bs : List Nat) :
    bytesToBits (b :: bs) = byteToBits b ++ bytesToBits bs := by
  simp [bytesToBits]

theorem bytesToBits_append (a b : List Nat) :
    bytesToBits (a ++ b) = bytesToBits a ++ bytesToBits b := by
  simp [bytesToBits]

theorem bytesToBits_length (bs : List Nat) :
    (bytesToBits bs).length = 8 * bs.length := by
  induction bs with
  | nil => rfl
  | cons b bs ih =>
    rw [bytesToBits_cons]
    simp [length_byteToBits, ih]
    ring

theorem bytesToBits_take (bs : List Nat) :
    ∀ k, bytesToBits (bs.take k) = (bytesToBits bs).take (8 * k) := by
  induction bs with
  | nil => intro k; simp [bytesToBits]
  | cons b bs ih =>
    intro k
    cases k with
    | zero => simp [bytesToBits]
    | succ k =>
      rw [List.take_succ_cons, bytesToBits_cons, bytesToBits_cons]
      have h8 : 8 * (k + 1) = (byteToBits b).length + 8 * k := by
        rw [length_byteToBits]; ring
      rw [h8, List.take_append, ih]

theorem bytesToBits_replicate_zero (k : Nat) :
    bytesToBits (List.replicate k 0) = List.replicate (8 * k) false := by
  induction k with
  | zero => rfl
  | succ k ih =>
    rw [List.replicate_succ, bytesToBits_cons, ih]
    have : byteToBits 0 = List.replicate 8 false := rfl
    rw [this, ← List.replicate_add]
    congr 1
    ring

theorem exists_chunk8 (l : List Bool) (h8 : 8 ≤ l.length) :
    ∃ b0 b1 b2 b3 b4 b5 b6 b7 rest,
      l = b0 :: b1 :: b2 :: b3 :: b4 :: b5 :: b6 :: b7 :: rest := by
  rcases l with _ | ⟨b0, l⟩; · simp at h8
  rcases l with _ | ⟨b1, l⟩; · simp at h8
  rcases l with _ | ⟨b2, l⟩; · simp at h8
  rcases l with _ | ⟨b3, l⟩; · simp at h8
  rcases l with _ | ⟨b4, l⟩; · simp at h8
  rcases l with _ | ⟨b5, l⟩; · simp at h8
  rcases l with _ | ⟨b6, l⟩; · simp at h8
  rcases l with _ | ⟨b7, l⟩; · simp at h8
  exact ⟨b0, b1, b2, b3, b4, b5, b6, b7, l, rfl⟩

theorem bitsToBytes_small (l : List Bool) (h : l.length < 8) :
    bitsToBytes l = [] := by
  rw [bitsToBytes.eq_def]
  split
  · rename_i b0 b1 b2 b3 b4 b5 b6 b7 rest heq
    exfalso
    simp at h
    omega
  · rfl

theorem bitsToBytes_chunk (b0 b1 b2 b3 b4 b5 b6 b7 : Bool) (rest : List Bool) :
    bitsToBytes (b0 :: b1 :: b2 :: b3 :: b4 :: b5 :: b6 :: b7 :: rest) =
      bitsToByte [b0, b1, b2, b3, b4, b5, b6, b7] :: bitsToBytes rest := rfl

theorem bitsToBytes_len8 (l : List Bool) (h : l.length = 8) :
    bitsToBytes l = [bitsToByte l] := by
  obtain ⟨b0, b1, b2, b3, b4, b5, b6, b7, rest, rfl⟩ :=
    exists_chunk8 l (by omega)
  have hrest : rest = [] := by
    simp at h
    assumption
  subst hrest
  rfl

theorem bitsToBytes_append_aux : ∀ (n : Nat) (a b : List Bool), a.length ≤ n →
    a.length % 8 = 0 → bitsToBytes (a ++ b) = bitsToBytes a ++ bitsToBytes b := by
  intro n
  induction n with
  | zero =>
    intro a b hle _
    have : a = [] := by
      cases a
      · rfl
      · simp at hle
    subst this
    rfl
  | succ n ih =>
    intro a b hle h
    by_cases h8 : 8 ≤ a.length
    · obtain ⟨b0, b1, b2, b3, b4, b5, b6, b7, rest, rfl⟩ := exists_chunk8 a h8
      have hr : rest.length ≤ n := by simp at hle; omega
      have hm : rest.length % 8 = 0 := by simp at h; omega
      simp only [List.cons_append, bitsToBytes_chunk, ih rest b hr hm]
    · have hz : a.length = 0 := by omega
      have : a = [] := by simpa using hz
      subst this
      rfl

theorem bitsToBytes_append (a b : List Bool) (h : a.length % 8 = 0) :
    bitsToBytes (a ++ b) = bitsToBytes a ++ bitsToBytes b :=
  bitsToBytes_append_aux a.length a b le_rfl h

theorem bitsToBytes_length_aux : ∀ (n : Nat) (l : List Bool), l.length ≤ n →
    (bitsToBytes l).length = l.length / 8 := by
  intro n
  induction n with
  | zero =>
    intro l hle
    have : l = [] := by
      cases l
      · rfl
      · simp at hle
    subst this
    rfl
  | succ n ih =>
    intro l hle
    by_cases h8 : 8 ≤ l.length
    · obtain ⟨b0, b1, b2, b3, b4, b5, b6, b7, rest, rfl⟩ := exists_chunk8 l h8
      have hr : rest.length ≤ n := by simp at hle; omega
      rw [bitsToBytes_chunk]
      simp only [List.length_cons, ih rest hr]
      omega
    · rw [bitsToBytes_small l (by omega)]
      simp
      omega

theorem bitsToBytes_length (l : List Bool) :
    (bitsToBytes l).length = l.length / 8 :=
  bitsToBytes_length_aux l.length l le_rfl

theorem drop_chunks (a b : List Bool) (h : a.length % 8 = 0) :
    (a ++ b).drop (8 * ((a ++ b).length / 8)) = b.drop (8 * (b.length / 8)) := by
  have key : 8 * ((a.length + b.length) / 8) = a.length + 8 * (b.length / 8) := by
    omega
  rw [List.length_append, key, ← List.drop_drop, List.drop_left]

set_option maxRecDepth 4096 in
theorem bitsToByte_byteToBits : ∀ b < 256, bitsToByte (byteToBits b) = b := by
  decide

theorem bitsToBytes_byteToBits_append (b : Nat) (l : List Bool) :
    bitsToBytes (byteToBits b ++ l) =
      bitsToByte (byteToBits b) :: bitsToBytes l := rfl

theorem bitsToBytes_bytesToBits (bs : List Nat) (hv : ∀ b ∈ bs, b < 256) :
    bitsToBytes (bytesToBits bs) = bs := by
  induction bs with
  | nil => rfl
  | cons b bs ih =>
    rw [bytesToBits_cons, bitsToBytes_byteToBits_append,
      bitsToByte_byteToBits b (hv b (List.mem_cons_self b bs)),
      ih (fun x hx => hv x (List.mem_cons_of_mem b hx))]

/-! ## Reader lemmas

The workhorse notion is the pending bit stream of a slice-backed
Container: the buffered leftover bits followed by the bits of the bytes
not yet consumed from the slice. Every successful read peels its result
off the front of the pending stream. -/

theorem pending_length (c : Container (List Nat)) :
    (Container.pending c).length = c.leftover.length + 8 * c.inner.length := by
  simp [Container.pending, bytesToBits_length]

theorem fillBuf_length (n : Nat) (bs : List Nat) : (fillBuf n bs).length = n := by
  simp [fillBuf]
  omega

theorem fillBuf_of_length (n : Nat) (bs : List Nat) (h : bs.length = n) :
    fillBuf n bs = bs := by
  subst h
  simp [fillBuf]

theorem bytesLenFor_mul8 (bl : Nat) : bl ≤ 8 * bytesLenFor bl := by
  unfold bytesLenFor
  split <;> omega

theorem bytesLenFor_lt_mul8 (bl : Nat) : 8 * bytesLenFor bl < bl + 8 := by
  unfold bytesLenFor
  split <;> omega

theorem bytesLenFor_le_iff (bl m : Nat) : bytesLenFor bl ≤ m ↔ bl ≤ 8 * m := by
  unfold bytesLenFor
  split <;> omega

theorem read_bits_zero {S : Type} (re : ReadExact S) (c : Container S) :
    Container.read_bits re c 0 = (.ok none, c) := rfl

theorem read_bits_eq_leftover {S : Type} (re : ReadExact S) (c : Container S)
    (amt : Nat) (h0 : amt ≠ 0) (he : amt = c.leftover.length) :
    Container.read_bits re c amt =
      (.ok (some c.leftover),
       { c with leftover := [], bits_read := c.bits_read + c.leftover.length }) := by
  subst he
  have hne : c.leftover ≠ [] := by
    intro hnil
    exact h0 (by simp [hnil])
  simp [Container.read_bits, h0, hne]

theorem read_bits_less {S : Type} (re : ReadExact S) (c : Container S)
    (amt : Nat) (h0 : amt ≠ 0) (hl : amt < c.leftover.length) :
    Container.read_bits re c amt =
      (.ok (some (c.leftover.take amt)),
       { c with leftover := c.leftover.drop amt,
                bits_read := c.bits_read + (c.leftover.take amt).length }) := by
  simp [Container.read_bits, h0, Nat.ne_of_lt hl, Nat.not_lt.mpr (Nat.le_of_lt hl)]

theorem read_bits_greater_eof (c : Container (List Nat)) (amt : Nat)
    (hg : c.leftover.length < amt)
    (hs : c.inner.length < bytesLenFor (amt - c.leftover.length)) :
    Container.read_bits sliceRead c amt = (.error (.Incomplete amt), c) := by
  have h0 : amt ≠ 0 := by omega
  simp [Container.read_bits, h0, Nat.ne_of_gt hg, hg, sliceRead,
    Nat.not_le.mpr hs]

theorem read_bits_greater_ok (c : Container (List Nat)) (amt : Nat)
    (hg : c.leftover.length < amt)
    (hs : bytesLenFor (amt - c.leftover.length) ≤ c.inner.length) :
    Container.read_bits sliceRead c amt =
      (.ok (some (c.leftover ++
         (bytesToBits (c.inner.take (bytesLenFor (amt - c.leftover.length)))).take
           (amt - c.leftover.length))),
       { inner := c.inner.drop (bytesLenFor (amt - c.leftover.length)),
         leftover := (bytesToBits
             (c.inner.take (bytesLenFor (amt - c.leftover.length)))).drop
           (amt - c.leftover.length),
         bits_read := c.bits_read + (c.leftover ++
           (bytesToBits (c.inner.take (bytesLenFor (amt - c.leftover.length)))).take
             (amt - c.leftover.length)).length }) := by
  have h0 : amt ≠ 0 := by omega
  have htk : (c.inner.take (bytesLenFor (amt - c.leftover.length))).length =
      bytesLenFor (amt - c.leftover.length) := by
    simp [List.length_take]
    omega
  simp [Container.read_bits, h0, Nat.ne_of_gt hg, hg, sliceRead, hs,
    fillBuf_of_length _ _ htk]

theorem fillBuf_nil (n : Nat) : fillBuf n [] = List.replicate n 0 := by
  simp [fillBuf]

theorem read_bits_greater_errother {S : Type} (re : ReadExact S)
    (c : Container S) (amt : Nat) (hg : c.leftover.length < amt) (s : S)
    (hre : re c.inner (bytesLenFor (amt - c.leftover.length)) = .err false s) :
    Container.read_bits re c amt =
      (.ok (some (c.leftover ++
         (bytesToBits (fillBuf (bytesLenFor (amt - c.leftover.length)) [])).take
           (amt - c.leftover.length))),
       { inner := s,
         leftover := (bytesToBits
             (fillBuf (bytesLenFor (amt - c.leftover.length)) [])).drop
           (amt - c.leftover.length),
         bits_read := c.bits_read + (c.leftover ++
           (bytesToBits (fillBuf (bytesLenFor (amt - c.leftover.length)) [])).take
             (amt - c.leftover.length)).length }) := by
  have h0 : amt ≠ 0 := by omega
  simp [Container.read_bits, h0, Nat.ne_of_gt hg, hg, hre]

theorem read_bits_ok_pending (c c' : Container (List Nat)) (amt : Nat)
    (r : Option (List Bool))
    (h : Container.read_bits sliceRead c amt = (.ok r, c')) :
    (r.getD []).length = amt ∧
    Container.pending c = (r.getD []) ++ Container.pending c' := by
  by_cases h0 : amt = 0
  · subst h0
    rw [read_bits_zero] at h
    simp only [Prod.mk.injEq, Except.ok.injEq] at h
    obtain ⟨h1, h2⟩ := h
    subst h1
    subst h2
    simp
  · rcases Nat.lt_trichotomy amt c.leftover.length with hl | he | hg
    · rw [read_bits_less sliceRead c amt h0 hl] at h
      simp only [Prod.mk.injEq, Except.ok.injEq] at h
      obtain ⟨h1, h2⟩ := h
      subst h1
      subst h2
      constructor
      · simp [List.length_take]
        omega
      · simp only [Option.getD_some, Container.pending]
        rw [← List.append_assoc, List.take_append_drop]
    · rw [read_bits_eq_leftover sliceRead c amt h0 he] at h
      simp only [Prod.mk.injEq, Except.ok.injEq] at h
      obtain ⟨h1, h2⟩ := h
      subst h1
      subst h2
      constructor
      · simp [he]
      · simp [Container.pending]
    · by_cases hs : bytesLenFor (amt - c.leftover.length) ≤ c.inner.length
      · rw [read_bits_greater_ok c amt hg hs] at h
        simp only [Prod.mk.injEq, Except.ok.injEq] at h
        obtain ⟨h1, h2⟩ := h
        subst h1
        subst h2
        have htk : (c.inner.take (bytesLenFor (amt - c.leftover.length))).length =
            bytesLenFor (amt - c.leftover.length) := by
          simp [List.length_take]
          omega
        have hbl : amt - c.leftover.length ≤
            (bytesToBits (c.inner.take (bytesLenFor (amt - c.leftover.length)))).length := by
          rw [bytesToBits_length, htk]
          exact bytesLenFor_mul8 _
        constructor
        · simp [List.length_take]
          omega
        · simp only [Option.getD_some, Container.pending]
          conv_lhs =>
            rw [← List.take_append_drop (bytesLenFor (amt - c.leftover.length)) c.inner]
          rw [bytesToBits_append]
          simp only [List.append_assoc]
          rw [← List.append_assoc
            ((bytesToBits (c.inner.take (bytesLenFor (amt - c.leftover.length)))).take
              (amt - c.leftover.length)),
            List.take_append_drop]
      · rw [read_bits_greater_eof c amt hg (Nat.not_le.mp hs)] at h
        simp at h

theorem read_bits_ok_of_le (c : Container (List Nat)) (amt : Nat)
    (h : amt ≤ (Container.pending c).length) :
    ∃ r c', Container.read_bits sliceRead c amt = (.ok r, c') := by
  by_cases h0 : amt = 0
  · subst h0
    exact ⟨none, c, read_bits_zero sliceRead c⟩
  · rcases Nat.lt_trichotomy amt c.leftover.length with hl | he | hg
    · exact ⟨_, _, read_bits_less sliceRead c amt h0 hl⟩
    · exact ⟨_, _, read_bits_eq_leftover sliceRead c amt h0 he⟩
    · have hs : bytesLenFor (amt - c.leftover.length) ≤ c.inner.length := by
        rw [bytesLenFor_le_iff]
        rw [pending_length] at h
        omega
      exact ⟨_, _, read_bits_greater_ok c amt hg hs⟩

theorem readAll_ok_pending (ns : List Nat) (c c' : Container (List Nat))
    (vs : List (List Bool))
    (h : Container.readAll sliceRead ns c = some (vs, c')) :
    vs.flatten.length = ns.sum ∧
    Container.pending c = vs.flatten ++ Container.pending c' := by
  induction ns generalizing c vs with
  | nil =>
    simp only [Container.readAll, Option.some.injEq, Prod.mk.injEq] at h
    obtain ⟨h1, h2⟩ := h
    subst h1
    subst h2
    simp
  | cons n ns ih =>
    rcases hred : Container.read_bits sliceRead c n with ⟨res, c1⟩
    rcases res with e | r
    · simp only [Container.readAll, hred] at h
      exact absurd h (by simp)
    · simp only [Container.readAll, hred] at h
      rcases hrec : Container.readAll sliceRead ns c1 with _ | ⟨vs1, c2⟩
      · rw [hrec] at h
        simp at h
      · rw [hrec] at h
        simp only [Option.some.injEq, Prod.mk.injEq] at h
        obtain ⟨h1, h2⟩ := h
        subst h1
        subst h2
        obtain ⟨hlen1, hpend1⟩ := read_bits_ok_pending c c1 n r hred
        obtain ⟨hlen2, hpend2⟩ := ih c1 vs1 hrec
        constructor
        · simp [hlen1, hlen2]
        · rw [List.flatten_cons, hpend1, hpend2, List.append_assoc]

theorem readAll_ok_of_le (ns : List Nat) (c : Container (List Nat))
    (h : ns.sum ≤ (Container.pending c).length) :
    ∃ vs c', Container.readAll sliceRead ns c = some (vs, c') := by
  induction ns generalizing c with
  | nil => exact ⟨[], c, rfl⟩
  | cons n ns ih =>
    have hn : n ≤ (Container.pending c).length := by
      simp at h
      omega
    obtain ⟨r, c1, hred⟩ := read_bits_ok_of_le c n hn
    obtain ⟨hlen1, hpend1⟩ := read_bits_ok_pending c c1 n r hred
    have hns : ns.sum ≤ (Container.pending c1).length := by
      have := congrArg List.length hpend1
      simp [hlen1] at this h
      omega
    obtain ⟨vs1, c2, hrec⟩ := ih c1 hns
    refine ⟨(r.getD []) :: vs1, c2, ?_⟩
    simp only [Container.readAll, hred, hrec]

/-! ## Writer lemmas

The writer invariant: after the bit stream a has been passed to
write_bits/write_bytes, the sink holds the packed whole-byte prefix of a
and the leftover buffer holds the trailing a.length % 8 bits. -/

theorem wf_new : Writer.wf Writer.new [] := ⟨rfl, rfl⟩

theorem wf_leftover_length (w : Writer) (a : List Bool) (h : Writer.wf w a) :
    w.leftover.length = a.length % 8 := by
  rw [h.2]
  simp [List.length_drop]
  omega

theorem wf_split (a : List Bool) :
    a = a.take (8 * (a.length / 8)) ++ a.drop (8 * (a.length / 8)) :=
  (List.take_append_drop _ a).symm

theorem take_chunks_mod (a : List Bool) :
    (a.take (8 * (a.length / 8))).length % 8 = 0 := by
  simp [List.length_take]
  omega

theorem write_bits_wf (w : Writer) (a bits : List Bool) (h : Writer.wf w a) :
    Writer.wf (w.write_bits bits) (a ++ bits) := by
  obtain ⟨hi, hl⟩ := h
  have hwmod := take_chunks_mod a
  have hsplit : a = a.take (8 * (a.length / 8)) ++ w.leftover := by
    rw [hl]
    exact wf_split a
  have hinner : w.inner = bitsToBytes (a.take (8 * (a.length / 8))) := by
    rw [hi]
    conv_lhs => rw [wf_split a]
    rw [bitsToBytes_append _ _ hwmod, bitsToBytes_small (a.drop (8 * (a.length / 8)))
      (by simp [List.length_drop]; omega), List.append_nil]
  have hlen : w.leftover.length = a.length % 8 := wf_leftover_length w a ⟨hi, hl⟩
  unfold Writer.write_bits
  by_cases hq : w.leftover.length + bits.length < 8
  · rw [if_pos hq]
    constructor
    · show w.inner = bitsToBytes (a ++ bits)
      rw [hinner]
      conv_rhs => rw [hsplit, List.append_assoc]
      rw [bitsToBytes_append _ _ hwmod,
        bitsToBytes_small (w.leftover ++ bits) (by simp; omega), List.append_nil]
    · show w.leftover ++ bits = (a ++ bits).drop (8 * ((a ++ bits).length / 8))
      conv_rhs => rw [hsplit, List.append_assoc]
      rw [drop_chunks _ _ hwmod]
      have h0 : (w.leftover ++ bits).length / 8 = 0 := by simp; omega
      rw [h0]
      simp
  · rw [if_neg hq]
    constructor
    · conv_rhs => rw [hsplit, List.append_assoc]
      rw [bitsToBytes_append _ _ hwmod, hinner]
    · conv_rhs => rw [hsplit, List.append_assoc]
      rw [drop_chunks _ _ hwmod]

theorem write_bytes_wf (w : Writer) (a : List Bool) (buf : List Nat)
    (hv : ∀ b ∈ buf, b < 256) (h : Writer.wf w a) :
    Writer.wf (w.write_bytes buf) (a ++ bytesToBits buf) := by
  obtain ⟨hi, hl⟩ := h
  unfold Writer.write_bytes
  by_cases hne : w.leftover.isEmpty
  · rw [hne]
    simp only [Bool.not_true, Bool.false_eq_true, if_false]
    have hmod : a.length % 8 = 0 := by
      have := wf_leftover_length w a ⟨hi, hl⟩
      rw [List.isEmpty_iff] at hne
      rw [hne] at this
      simp at this
      omega
    constructor
    · rw [bitsToBytes_append _ _ hmod, hi, bitsToBytes_bytesToBits buf hv]
    · rw [List.isEmpty_iff] at hne
      rw [hne]
      have hlen : 8 * ((a ++ bytesToBits buf).length / 8) =
          (a ++ bytesToBits buf).length := by
        simp [List.length_append, bytesToBits_length]
        omega
      rw [hlen, List.drop_length]
  · simp only [Bool.not_eq_true] at hne
    rw [hne]
    simp only [Bool.not_false, if_true]
    exact write_bits_wf w a (bytesToBits buf) ⟨hi, hl⟩

theorem finalize_inner (w : Writer) (a : List Bool) (h : Writer.wf w a) :
    (w.finalize).inner =
      bitsToBytes (a ++ List.replicate ((8 - a.length % 8) % 8) false) := by
  obtain ⟨hi, hl⟩ := h
  have hlen : w.leftover.length = a.length % 8 := wf_leftover_length w a ⟨hi, hl⟩
  have hwmod := take_chunks_mod a
  have hsplit : a = a.take (8 * (a.length / 8)) ++ w.leftover := by
    rw [hl]
    exact wf_split a
  have hinner : w.inner = bitsToBytes (a.take (8 * (a.length / 8))) := by
    rw [hi]
    conv_lhs => rw [wf_split a]
    rw [bitsToBytes_append _ _ hwmod, bitsToBytes_small (a.drop (8 * (a.length / 8)))
      (by simp [List.length_drop]; omega), List.append_nil]
  unfold Writer.finalize
  by_cases hne : w.leftover.isEmpty
  · rw [hne]
    simp only [Bool.not_true, Bool.false_eq_true, if_false]
    rw [List.isEmpty_iff] at hne
    have hmod : a.length % 8 = 0 := by
      rw [hne] at hlen
      simp at hlen
      omega
    rw [hi, hmod]
    simp
  · simp only [Bool.not_eq_true] at hne
    rw [hne]
    simp only [Bool.not_false, if_true]
    have hmod : a.length % 8 ≠ 0 := by
      intro hz
      have hzl : w.leftover.length = 0 := by omega
      have hznil : w.leftover = [] := List.length_eq_zero.mp hzl
      rw [hznil] at hne
      simp at hne
    conv_rhs => rw [hsplit, List.append_assoc]
    rw [bitsToBytes_append _ _ hwmod, hinner]
    have hcnt : (8 - (List.take (8 * (a.length / 8)) a ++ w.leftover).length % 8) % 8 =
        8 - w.leftover.length := by
      rw [← hsplit]
      omega
    rw [hcnt]

theorem foldl_write_bits_wf (vs : List (List Bool)) (w : Writer) (a : List Bool)
    (h : Writer.wf w a) :
    Writer.wf (vs.foldl Writer.write_bits w) (a ++ vs.flatten) := by
  induction vs generalizing w a with
  | nil => simpa using h
  | cons v vs ih =>
    have step := write_bits_wf w a v h
    have := ih (w.write_bits v) (a ++ v) step
    simpa [List.append_assoc] using this

/-! ## Operation sequences

To state invariants over every externally observable moment of an
adapter's life, the public calls are reified as operation lists folded
over the state. -/

theorem foldl_runWrite_wf (ops : List WriteOp) (w : Writer) (a : List Bool)
    (hv : ∀ op ∈ ops, op.valid) (h : Writer.wf w a) :
    Writer.wf (ops.foldl Writer.runWrite w)
      (a ++ (ops.map WriteOp.bits).flatten) := by
  induction ops generalizing w a with
  | nil => simpa using h
  | cons op ops ih =>
    have hstep : Writer.wf (w.runWrite op) (a ++ op.bits) := by
      cases op with
      | wbits bits => exact write_bits_wf w a bits h
      | wbytes bs =>
        exact write_bytes_wf w a bs (hv (WriteOp.wbytes bs) (by simp)) h
    have := ih (w.runWrite op) (a ++ op.bits)
      (fun o ho => hv o (by simp [ho])) hstep
    simpa [List.append_assoc] using this

theorem read_bits_leftover_le (c : Container (List Nat)) (amt : Nat)
    (h : c.leftover.length ≤ 8) :
    (Container.read_bits sliceRead c amt).2.leftover.length ≤ 8 := by
  by_cases h0 : amt = 0
  · subst h0
    rw [read_bits_zero]
    exact h
  · rcases Nat.lt_trichotomy amt c.leftover.length with hl | he | hg
    · rw [read_bits_less sliceRead c amt h0 hl]
      simp [List.length_drop]
      omega
    · rw [read_bits_eq_leftover sliceRead c amt h0 he]
      simp
    · by_cases hs : bytesLenFor (amt - c.leftover.length) ≤ c.inner.length
      · rw [read_bits_greater_ok c amt hg hs]
        have htk : (c.inner.take (bytesLenFor (amt - c.leftover.length))).length =
            bytesLenFor (amt - c.leftover.length) := by
          simp [List.length_take]
          omega
        have := bytesLenFor_lt_mul8 (amt - c.leftover.length)
        simp [List.length_drop, bytesToBits_length, htk]
        omega
      · rw [read_bits_greater_eof c amt hg (Nat.not_le.mp hs)]
        exact h

theorem end_leftover_le (c : Container (List Nat))
    (h : c.leftover.length ≤ 8) :
    (Container.end_ sliceRead c).2.leftover.length ≤ 8 := by
  unfold Container.end_
  by_cases hne : c.leftover.isEmpty
  · rw [hne]
    simp only [Bool.not_true, Bool.false_eq_true, if_false]
    by_cases hs : 1 ≤ c.inner.length
    · simp [sliceRead, hs, bytesToBits_length, fillBuf_length]
    · simp [sliceRead, hs]
      have : c.leftover = [] := by simpa [List.isEmpty_iff] using hne
      simp [this]
  · simp only [Bool.not_eq_true] at hne
    rw [hne]
    simpa using h

theorem read_bytes_leftover_le (c : Container (List Nat)) (amt : Nat)
    (buf : List Nat) (h : c.leftover.length ≤ 8) :
    (Container.read_bytes sliceRead c amt buf).2.leftover.length ≤ 8 := by
  unfold Container.read_bytes
  by_cases hne : c.leftover.isEmpty
  · rw [if_pos hne]
    by_cases hb : buf.length < amt
    · rw [if_pos hb]
      exact h
    · rw [if_neg hb]
      by_cases hs : amt ≤ c.inner.length
      · simp [sliceRead, hs]
        exact h
      · simp [sliceRead, hs]
        exact h
  · rw [if_neg hne]
    rcases hr : Container.read_bits sliceRead c (amt * 8) with ⟨res, c'⟩
    have := read_bits_leftover_le c (amt * 8) h
    rw [hr] at this
    rcases res with e | r <;> simpa using this

theorem skip_bits_leftover_le (c : Container (List Nat)) (amt : Nat)
    (h : c.leftover.length ≤ 8) :
    (Container.skip_bits sliceRead c amt).2.leftover.length ≤ 8 := by
  unfold Container.skip_bits
  rcases hr : Container.read_bits sliceRead c amt with ⟨res, c'⟩
  have := read_bits_leftover_le c amt h
  rw [hr] at this
  rcases res with e | r <;> simpa using this

theorem step_leftover_le (c : Container (List Nat)) (op : ReaderOp)
    (h : c.leftover.length ≤ 8) :
    (Container.step sliceRead c op).leftover.length ≤ 8 := by
  cases op with
  | rbits amt => exact read_bits_leftover_le c amt h
  | rbytes amt buf => exact read_bytes_leftover_le c amt buf h
  | rend => exact end_leftover_le c h
  | rskip amt => exact skip_bits_leftover_le c amt h

theorem runOps_leftover_le (ops : List ReaderOp) (c : Container (List Nat))
    (h : c.leftover.length ≤ 8) :
    (Container.runOps sliceRead c ops).leftover.length ≤ 8 := by
  induction ops generalizing c with
  | nil => exact h
  | cons op ops ih => exact ih (Container.step sliceRead c op) (step_leftover_le c op h)

theorem bytesLenFor_pos (bl : Nat) (h : 0 < bl) : 0 < bytesLenFor bl := by
  unfold bytesLenFor
  split <;> omega

theorem write_bits_leftover_lt (w : Writer) (bits : List Bool)
    (h : w.leftover.length < 8) :
    (w.write_bits bits).leftover.length < 8 := by
  unfold Writer.write_bits
  by_cases hq : w.leftover.length + bits.length < 8
  · rw [if_pos hq]
    simpa using hq
  · rw [if_neg hq]
    simp [List.length_drop]
    omega

theorem write_bytes_leftover_lt (w : Writer) (buf : List Nat)
    (h : w.leftover.length < 8) :
    (w.write_bytes buf).leftover.length < 8 := by
  unfold Writer.write_bytes
  by_cases hne : w.leftover.isEmpty
  · rw [hne]
    simpa using h
  · simp only [Bool.not_eq_true] at hne
    rw [hne]
    simpa using write_bits_leftover_lt w (bytesToBits buf) h

theorem runWrite_leftover_lt (w : Writer) (op : WriteOp)
    (h : w.leftover.length < 8) :
    (w.runWrite op).leftover.length < 8 := by
  cases op with
  | wbits bits => exact write_bits_leftover_lt w bits h
  | wbytes bs => exact write_bytes_leftover_lt w bs h

theorem foldl_runWrite_leftover_lt (ops : List WriteOp) (w : Writer)
    (h : w.leftover.length < 8) :
    (ops.foldl Writer.runWrite w).leftover.length < 8 := by
  induction ops generalizing w with
  | nil => exact h
  | cons op ops ih => exact ih (w.runWrite op) (runWrite_leftover_lt w op h)

theorem finalize_spec (w : Writer) (hlt : w.leftover.length < 8) :
    (w.finalize).leftover.length = (if w.leftover.isEmpty then 0 else 8) ∧
    (w.finalize).inner = w.inner ++
      (if w.leftover.isEmpty then []
       else [bitsToByte (w.leftover ++
         List.replicate (8 - w.leftover.length) false)]) := by
  unfold Writer.finalize
  by_cases hne : w.leftover.isEmpty
  · rw [hne]
    simp only [Bool.not_true, Bool.false_eq_true, if_false, if_pos hne]
    constructor
    · simpa [List.isEmpty_iff] using hne
    · simp
  · have hne' : w.leftover.isEmpty = false := by
      simpa [Bool.not_eq_true] using hne
    have hlen0 : w.leftover.length ≠ 0 := by
      intro hz
      rw [List.length_eq_zero.mp hz] at hne'
      simp at hne'
    have hplen : (w.leftover ++ List.replicate (8 - w.leftover.length) false).length
        = 8 := by
      simp
      omega
    rw [hne']
    simp only [Bool.not_false, if_true, Bool.false_eq_true, if_false]
    constructor
    · simpa using hplen
    · rw [bitsToBytes_len8 _ hplen]

/-! ## The claims -/

/-- C1: for every non-empty byte sequence B and every partition of 8*|B|
into positive parts of at most 128 bits, reading the parts with read_bits
from a Reader over B and writing the returned bit-vectors into a fresh
Writer, then finalizing, reproduces B exactly on the output sink. -/
theorem C1_round_trip (B : List Nat) (ns : List Nat)
    (hB : B ≠ []) (hval : ∀ b ∈ B, b < 256)
    (hpos : ∀ n ∈ ns, 0 < n) (hmax : ∀ n ∈ ns, n ≤ 128)
    (hsum : ns.sum = 8 * B.length) :
    ∃ vs c', Container.readAll sliceRead ns (Container.new B) = some (vs, c') ∧
      ((vs.foldl Writer.write_bits Writer.new).finalize).inner = B := by
  have hpend : (Container.pending (Container.new B)).length = 8 * B.length := by
    simp [pending_length, Container.new]
  obtain ⟨vs, c', hall⟩ := readAll_ok_of_le ns (Container.new B)
    (by rw [hpend]; omega)
  obtain ⟨hlen, hpendeq⟩ := readAll_ok_pending ns (Container.new B) c' vs hall
  have hpnew : Container.pending (Container.new B) = bytesToBits B := by
    simp [Container.pending, Container.new]
  have hlenB : (bytesToBits B).length = 8 * B.length := bytesToBits_length B
  have hfl : vs.flatten = bytesToBits B := by
    have h1 : bytesToBits B = vs.flatten ++ Container.pending c' := by
      rw [← hpnew, hpendeq]
    have h2 : (Container.pending c').length = 0 := by
      have hlc := congrArg List.length h1
      simp only [List.length_append, hlenB, hlen] at hlc
      omega
    rw [List.length_eq_zero.mp h2, List.append_nil] at h1
    exact h1.symm
  refine ⟨vs, c', hall, ?_⟩
  have hwf := foldl_write_bits_wf vs Writer.new [] wf_new
  rw [List.nil_append] at hwf
  rw [finalize_inner _ _ hwf, hfl]
  have hcnt : (8 - (bytesToBits B).length % 8) % 8 = 0 := by
    rw [hlenB]
    omega
  rw [hcnt]
  simpa using bitsToBytes_bytesToBits B hval

theorem C1_round_trip_witness :
    [165] ≠ ([] : List Nat) ∧
    (∃ vs c',
      Container.readAll sliceRead [3, 5] (Container.new [165]) = some (vs, c') ∧
      ((vs.foldl Writer.write_bits Writer.new).finalize).inner = [165]) :=
  ⟨by decide,
   C1_round_trip [165] [3, 5] (by decide) (by decide) (by decide) (by decide)
     (by decide)⟩

/-- C2: the concatenation of the bit-vectors returned by any successful
sequence of read_bits calls over input B equals the MSB-first bit
expansion of the prefix of B consumed from the stream, truncated to the
sum of the requested amounts. -/
theorem C2_read_concat (B : List Nat) (ns : List Nat) (vs : List (List Bool))
    (c' : Container (List Nat))
    (h : Container.readAll sliceRead ns (Container.new B) = some (vs, c')) :
    vs.flatten =
      (bytesToBits (B.take (B.length - c'.inner.length))).take ns.sum := by
  obtain ⟨hlen, hpend⟩ := readAll_ok_pending ns (Container.new B) c' vs h
  have hpnew : Container.pending (Container.new B) = bytesToBits B := by
    simp [Container.pending, Container.new]
  rw [hpnew] at hpend
  have hlenB : (bytesToBits B).length = 8 * B.length := bytesToBits_length B
  have hlc := congrArg List.length hpend
  simp only [List.length_append, hlenB, hlen, pending_length] at hlc
  have h8k : 8 * (B.length - c'.inner.length) =
      vs.flatten.length + c'.leftover.length := by omega
  rw [bytesToBits_take, List.take_take]
  have hmin : min ns.sum (8 * (B.length - c'.inner.length)) = ns.sum := by
    omega
  rw [hmin, hpend]
  have hsum : ns.sum = vs.flatten.length := hlen.symm
  rw [hsum, List.take_left]

/-- Witness for C2 over the straddling-read scenario of the spec. -/
theorem C2_read_concat_witness :
    [[true, false, true, false],
     [false, true, false, true, false, true, false, true],
     [true, false, true, false]].flatten =
      (bytesToBits (([165, 90] : List Nat).take
        (([165, 90] : List Nat).length -
          (⟨[], [], 16⟩ : Container (List Nat)).inner.length))).take
        ([4, 8, 4] : List Nat).sum :=
  C2_read_concat [165, 90] [4, 8, 4]
    [[true, false, true, false],
     [false, true, false, true, false, true, false, true],
     [true, false, true, false]]
    ⟨[], [], 16⟩ (by decide)

/-- C3: after any sequence of write_bits/write_bytes calls followed by
finalize, the sink holds the MSB-first packing of the concatenated bit
stream, right-padded with zero bits to the next byte boundary. -/
theorem C3_writer_packing (ops : List WriteOp) (hv : ∀ op ∈ ops, op.valid) :
    ((ops.foldl Writer.runWrite Writer.new).finalize).inner =
      bitsToBytes ((ops.map WriteOp.bits).flatten ++
        List.replicate
          ((8 - ((ops.map WriteOp.bits).flatten).length % 8) % 8) false) := by
  have hwf := foldl_runWrite_wf ops Writer.new [] hv wf_new
  rw [List.nil_append] at hwf
  exact finalize_inner _ _ hwf

/-- Witness for C3: the canonical writer packing scenario of the spec,
whose expected sink contents are 0xAA 0xBB 0xF1 0xAA 0x1F 0x1A 0xAF. -/
theorem C3_writer_packing_witness :
    ((([WriteOp.wbytes [170], WriteOp.wbits (bytesToBits [187]),
        WriteOp.wbits [true, true, true, true],
        WriteOp.wbits [false, false, false, true],
        WriteOp.wbytes [170],
        WriteOp.wbits [false, false, false, true],
        WriteOp.wbits [true, true, true, true],
        WriteOp.wbits [false, false, false, true],
        WriteOp.wbytes [170],
        WriteOp.wbits [true, true, true, true]] : List WriteOp).foldl
          Writer.runWrite Writer.new).finalize).inner =
      bitsToBytes ((([WriteOp.wbytes [170], WriteOp.wbits (bytesToBits [187]),
        WriteOp.wbits [true, true, true, true],
        WriteOp.wbits [false, false, false, true],
        WriteOp.wbytes [170],
        WriteOp.wbits [false, false, false, true],
        WriteOp.wbits [true, true, true, true],
        WriteOp.wbits [false, false, false, true],
        WriteOp.wbytes [170],
        WriteOp.wbits [true, true, true, true]] : List WriteOp).map
          WriteOp.bits).flatten ++
        List.replicate
          ((8 - ((([WriteOp.wbytes [170], WriteOp.wbits (bytesToBits [187]),
            WriteOp.wbits [true, true, true, true],
            WriteOp.wbits [false, false, false, true],
            WriteOp.wbytes [170],
            WriteOp.wbits [false, false, false, true],
            WriteOp.wbits [true, true, true, true],
            WriteOp.wbits [false, false, false, true],
            WriteOp.wbytes [170],
            WriteOp.wbits [true, true, true, true]] : List WriteOp).map
              WriteOp.bits).flatten).length % 8) % 8) false) :=
  C3_writer_packing _ (by decide)

/-- C4 (counterexample): after end() returned false on a byte-aligned
non-exhausted Reader over 0xAA, the leftover buffer holds the whole
buffered look-ahead byte, 8 bits, refuting strictly-fewer-than-8 after
every return of end(). -/
theorem C4_counterexample :
    ¬ ((Container.runOps sliceRead (Container.new [170])
        [ReaderOp.rend]).leftover.length < 8) := by
  decide

/-- C4 (amended): along every sequence of end/skip_bits/read_bits/read_bytes
calls from a fresh Reader, the leftover buffer never exceeds 8 bits; the
value 8 itself is reachable via the look-ahead byte buffered by end(). -/
theorem C4_leftover_le_eight (B : List Nat) (ops : List ReaderOp) :
    (Container.runOps sliceRead (Container.new B) ops).leftover.length ≤ 8 :=
  runOps_leftover_le ops (Container.new B) (by simp [Container.new])

/-- C5 (counterexample): finalize does not clear the leftover buffer: after
writing a single bit and finalizing, leftover is non-empty (it holds the
padded byte). -/
theorem C5_counterexample :
    ((Writer.new.write_bits [true]).finalize).leftover ≠ [] := by
  decide

/-- C5 (amended): after finalize, the sink has received whole bytes only:
if leftover was empty finalize is a no-op, otherwise it appends exactly the
one byte packing the zero-padded leftover — but leftover is not cleared, it
keeps the 8 padded bits. -/
theorem C5_finalize_pads (ops : List WriteOp) :
    ((ops.foldl Writer.runWrite Writer.new).finalize).leftover.length =
      (if (ops.foldl Writer.runWrite Writer.new).leftover.isEmpty
       then 0 else 8) ∧
    ((ops.foldl Writer.runWrite Writer.new).finalize).inner =
      (ops.foldl Writer.runWrite Writer.new).inner ++
        (if (ops.foldl Writer.runWrite Writer.new).leftover.isEmpty then []
         else [bitsToByte ((ops.foldl Writer.runWrite Writer.new).leftover ++
           List.replicate
             (8 - (ops.foldl Writer.runWrite Writer.new).leftover.length)
             false)]) :=
  finalize_spec (ops.foldl Writer.runWrite Writer.new)
    (foldl_runWrite_leftover_lt ops Writer.new (by simp [Writer.new]))

/-- C6 (counterexample): bits_written records only write-path flushes, not
finalize: after 17 bits are written (flushing 16) and finalize flushes the
9th..17th bits padded byte, the sink grew by one byte yet bits_written is
still 16, not 8. -/
theorem C6_counterexample :
    (((Writer.new.write_bits (List.replicate 17 true)).finalize).inner.length =
      (Writer.new.write_bits (List.replicate 17 true)).inner.length + 1) ∧
    ((Writer.new.write_bits
        (List.replicate 17 true)).finalize).bits_written ≠ 8 := by
  decide

/-- C6 (amended): bits_written holds the size in bits of the most recent
write_bits splice or byte-aligned write_bytes flush; finalize leaves it
untouched even when it emits the padded byte. -/
theorem C6_bits_written (w : Writer) (bits : List Bool) (buf : List Nat) :
    (8 ≤ w.leftover.length + bits.length →
      (w.write_bits bits).bits_written =
        8 * ((w.leftover.length + bits.length) / 8)) ∧
    (w.leftover.isEmpty = true →
      (w.write_bytes buf).bits_written = buf.length * 8) ∧
    (w.finalize).bits_written = w.bits_written := by
  refine ⟨?_, ?_, ?_⟩
  · intro h8
    unfold Writer.write_bits
    rw [if_neg (by omega)]
    simp [List.length_append]
  · intro hne
    unfold Writer.write_bytes
    rw [hne]
    simp
  · unfold Writer.finalize
    by_cases hne : w.leftover.isEmpty
    · rw [hne]
      simp
    · simp only [Bool.not_eq_true] at hne
      rw [hne]
      simp

theorem C6_bits_written_witness :
    (Writer.new.write_bits (List.replicate 17 true)).bits_written = 16 ∧
    (Writer.new.write_bytes [1, 2]).bits_written = 16 ∧
    (Writer.new.finalize).bits_written = 0 := by
  obtain ⟨h1, h2, h3⟩ :=
    C6_bits_written Writer.new (List.replicate 17 true) [1, 2]
  refine ⟨?_, ?_, ?_⟩
  · have := h1 (by decide)
    simpa using this
  · have := h2 (by decide)
    simpa using this
  · simpa using h3

/-- C7 (counterexample): on the byte-aligned path with a too-short caller
buffer, read_bytes fails with the Incomplete kind (carrying 8n bits), not
with an error kind distinct from incomplete. -/
theorem C7_counterexample :
    Container.read_bytes sliceRead (Container.new [170]) 1 [] =
      (.error (.Incomplete 8), Container.new [170]) := by
  decide

/-- C7 (amended): on the byte-aligned path, a caller buffer shorter than
the request makes read_bytes fail with Incomplete(8n) — the same incomplete
kind as a short read — without touching the underlying stream. -/
theorem C7_short_buffer (c : Container (List Nat)) (amt : Nat)
    (buf : List Nat) (hl : c.leftover = []) (hb : buf.length < amt) :
    Container.read_bytes sliceRead c amt buf =
      (.error (.Incomplete (amt * 8)), c) := by
  unfold Container.read_bytes
  rw [hl]
  simp [hb]

theorem C7_short_buffer_witness :
    Container.read_bytes sliceRead (Container.new [1, 2, 3]) 2 [9] =
      (.error (.Incomplete 16), Container.new [1, 2, 3]) :=
  C7_short_buffer (Container.new [1, 2, 3]) 2 [9] rfl (by decide)

/-- C8: once end() has returned true on a slice-backed Reader (so the
source keeps reporting end-of-stream), the next read_bits(n) with n >= 1
fails with Incomplete carrying exactly n. -/
theorem C8_end_then_incomplete (c c' : Container (List Nat)) (n : Nat)
    (hend : Container.end_ sliceRead c = (true, c')) (hn : 1 ≤ n) :
    (Container.read_bits sliceRead c' n).1 = .error (.Incomplete n) := by
  unfold Container.end_ at hend
  by_cases hne : c.leftover.isEmpty
  · rw [hne] at hend
    simp only [Bool.not_true, Bool.false_eq_true, if_false] at hend
    by_cases hs : 1 ≤ c.inner.length
    · simp [sliceRead, hs] at hend
    · simp only [sliceRead, if_neg (by omega : ¬ 1 ≤ c.inner.length),
        Prod.mk.injEq, true_and] at hend
      have hinner : c.inner = [] :=
        List.length_eq_zero.mp (by omega)
      have hlef : c.leftover = [] := List.isEmpty_iff.mp hne
      rw [← hend]
      have hcc : ({ c with inner := c.inner } : Container (List Nat)) = c := rfl
      rw [hcc, read_bits_greater_eof c n (by rw [hlef]; simpa using hn)
        (by rw [hinner, hlef]; simpa using bytesLenFor_pos n (by omega))]
  · simp only [Bool.not_eq_true] at hne
    rw [hne] at hend
    simp at hend

theorem C8_end_then_incomplete_witness :
    Container.end_ sliceRead (Container.new ([] : List Nat)) =
      (true, Container.new []) ∧
    (Container.read_bits sliceRead (Container.new ([] : List Nat)) 5).1 =
      .error (.Incomplete 5) :=
  ⟨by decide,
   C8_end_then_incomplete (Container.new []) (Container.new []) 5
     (by decide) (by decide)⟩

/-- C9: a source failure with a kind other than end-of-stream is silently
discarded: read_bits returns success with the request filled from the
zero-initialised scratch buffer, and byte-aligned read_bytes returns
success with the caller's buffer untouched; in both cases bits_read
advances and no error surfaces. -/
theorem C9_error_swallowed (c : Container Unit) (n : Nat) (buf : List Nat)
    (hn : 0 < n) (hl : c.leftover = []) (hb : n ≤ buf.length) :
    Container.read_bits failRead c n =
      (.ok (some (List.replicate n false)),
       { inner := (), leftover := List.replicate (8 * bytesLenFor n - n) false,
         bits_read := c.bits_read + n }) ∧
    Container.read_bytes failRead c n buf =
      (.ok (.Bytes buf),
       { c with inner := (), bits_read := c.bits_read + n * 8 }) := by
  have hmul := bytesLenFor_mul8 n
  constructor
  · rw [read_bits_greater_errother failRead c n
      (by rw [hl]; simpa using hn) () rfl]
    rw [hl]
    simp only [List.length_nil, Nat.sub_zero, List.nil_append, fillBuf_nil,
      bytesToBits_replicate_zero, List.take_replicate, List.drop_replicate,
      List.length_replicate]
    rw [min_eq_left hmul]
  · unfold Container.read_bytes
    rw [hl]
    simp [failRead, Nat.not_lt.mpr hb]

theorem C9_error_swallowed_witness :
    Container.read_bits failRead (Container.new ()) 3 =
      (.ok (some (List.replicate 3 false)),
       { inner := (), leftover := List.replicate (8 * bytesLenFor 3 - 3) false,
         bits_read := (Container.new ()).bits_read + 3 }) ∧
    Container.read_bytes failRead (Container.new ()) 3 [7, 7, 7] =
      (.ok (.Bytes [7, 7, 7]),
       { inner := (), leftover := [], bits_read := 0 + 3 * 8 }) :=
  C9_error_swallowed (Container.new ()) 3 [7, 7, 7] (by decide) rfl (by decide)

/-- C10: read_bits never checks amt against MAX_BITS_AMT at runtime (a
136-bit request larger than the cap still succeeds), and for every call
within the documented cap and with a legal leftover the scratch-buffer
prefix buf[..bytes_len] and the split_at(bits_left) are both in bounds,
so the 128-bit cap is purely a caller precondition. -/
theorem C10_scratch_in_bounds (amt L : Nat) (hamt : amt ≤ MAX_BITS_AMT)
    (hL : L < 8) :
    bytesLenFor (amt - L) ≤ MAX_BITS_AMT ∧
    amt - L ≤ 8 * bytesLenFor (amt - L) ∧
    (Container.read_bits sliceRead
        (Container.new (List.replicate 17 0)) 136).1 =
      .ok (some (List.replicate 136 false)) := by
  refine ⟨?_, bytesLenFor_mul8 _, ?_⟩
  · have h128 : MAX_BITS_AMT = 128 := rfl
    rw [h128] at hamt ⊢
    unfold bytesLenFor
    split <;> omega
  · decide

theorem C10_scratch_in_bounds_witness :
    bytesLenFor (128 - 0) ≤ MAX_BITS_AMT ∧
    128 - 0 ≤ 8 * bytesLenFor (128 - 0) ∧
    (Container.read_bits sliceRead
        (Container.new (List.replicate 17 0)) 136).1 =
      .ok (some (List.replicate 136 false)) :=
  C10_scratch_in_bounds 128 0 (by decide) (by decide)

end Deku
